import Mathlib

/-!
Verification of the core SLAM estimation engines (event log, FastSLAM 2.0,
MCMC-SLAM, graph-optimization SLAM) against their specification.

The C++ sources are embedded shallowly:

* `slam_data` (src/slam/slam_data.hpp) becomes an explicit record of controls
  and per-feature observation timelines, with `add_observation` returning the
  event broadcast to listeners (all listeners receive the same arguments, so a
  single optional event value models the multicast).
* `mcmc_slam` (src/slam/mcmc_slam.hpp) becomes a state-transition system over
  an explicit estimator state; random draws and the Metropolis accept decision
  enter as explicit parameters of each transition, covering every possible
  outcome of the random source.
* `cowmap` (src/utility/cowmap.hpp) becomes a binary search tree; the
  underlying `cowtree` node store (src/utility/cowtree.hpp is not part of the
  sources) is modelled from the spec as a plain persistent BST.
* The Fenwick tree `utility::bitree` (bitree.hpp is not part of the sources)
  is modelled from the spec: a sequence of group increments with prefix
  composition, range accumulation `accumulate(a,b) = -prefix(a) + prefix(b)`
  and weighted `binary_search`.
* Poses/states form an arbitrary (not necessarily commutative) additive group
  `G` acting on features of type `F`, mirroring the template parameters of the
  C++ code.  Log-likelihood values are modelled as rationals; probability-level
  statements about the Metropolis acceptance rule use real numbers with
  `Real.exp`.
-/

namespace SlamSpec

/-! ### Configuration options and seed policy

`boost::program_options::variables_map` is restricted to the two seed options
relevant here.  `remember_option` is modelled from the spec (its definition
lives in src/utility/utility.hpp, which is not among the sources): if the
option is present in the configuration its value is used verbatim, otherwise
the supplied seed is used and stored back into the configuration. -/

structure SlamOptions where
  mcmcSeed : Option ℕ
  fastslamSeed : Option ℕ
  deriving DecidableEq, Repr

/-- Modelled from the spec: `remember_option` from src/utility/utility.hpp
(not among the sources).  Returns the seed actually used together with the
stored option value afterwards. -/
def remember_option (stored : Option ℕ) (seed : ℕ) : ℕ × Option ℕ :=
  match stored with
  | some v => (v, some v)
  | none => (seed, some seed)

/-- Seed initialisation performed by the `mcmc_slam` constructor
(src/slam/mcmc_slam.hpp lines 451-461): `random (remember_option (options,
"mcmc-slam-seed", seed))`. -/
def mcmc_slam_ctor_seed (opts : SlamOptions) (seed : ℕ) : ℕ × SlamOptions :=
  let r := remember_option opts.mcmcSeed seed
  (r.1, { opts with mcmcSeed := r.2 })

/-- Seed initialisation performed by the `fastslam` constructor
(src/slam/fastslam.hpp lines 404-414): the member initialiser is
`random (seed)`; the "fastslam-seed" option is never read and the
configuration is left untouched. -/
def fastslam_ctor_seed (opts : SlamOptions) (seed : ℕ) : ℕ × SlamOptions :=
  (seed, opts)

/-! ### The copy-on-write map of src/utility/cowmap.hpp

`cowmap` keys are compared with `std::less` twice, descending left on
"entry < node", right on "node < entry" and overwriting the mapped value in
place otherwise (src/utility/cowmap.hpp lines 104-125).  The underlying
`cowtree` is modelled from the spec (src/utility/cowtree.hpp is not among the
sources; the spec describes a copy-on-write binary search tree whose balance
is optional), so the tree is a plain persistent BST. -/

inductive Cowtree (K V : Type) where
  | leaf
  | node (left : Cowtree K V) (key : K) (val : V) (right : Cowtree K V)
  deriving DecidableEq, Repr

variable {K V : Type}

/-- Insertion as in `cowmap::insert (const value_type&, cowtree::editor&)`:
returns the new tree and whether a new node was created (`true`) or an
existing mapped value was overwritten in place (`false`). -/
def Cowtree.insertGo [LinearOrder K] : Cowtree K V → K → V → Cowtree K V × Bool
  | .leaf, k, v => (.node .leaf k v .leaf, true)
  | .node l k0 v0 r, k, v =>
    if k < k0 then
      let p := insertGo l k v
      (.node p.1 k0 v0 r, p.2)
    else if k0 < k then
      let p := insertGo r k v
      (.node l k0 v0 p.1, p.2)
    else
      (.node l k0 v r, false)

/-- The tree after `cowmap::insert (key, value)`. -/
def Cowtree.insert [LinearOrder K] (m : Cowtree K V) (k : K) (v : V) : Cowtree K V :=
  (m.insertGo k v).1

/-- Lookup along the same comparison path as `cowmap::find_subtree` followed by
extracting the mapped value; `none` corresponds to reaching an empty subtree. -/
def Cowtree.get? [LinearOrder K] : Cowtree K V → K → Option V
  | .leaf, _ => none
  | .node l k0 v0 r, k =>
    if k < k0 then get? l k
    else if k0 < k then get? r k
    else some v0

/-- `cowmap::count`: 1 when `find_subtree` lands on a node, 0 otherwise. -/
def Cowtree.count [LinearOrder K] (m : Cowtree K V) (k : K) : ℕ :=
  if (m.get? k).isSome then 1 else 0

/-- `cowmap::empty`. -/
def Cowtree.isEmptyTree : Cowtree K V → Bool
  | .leaf => true
  | .node _ _ _ _ => false

/-- In-order traversal as produced by `cowmap::for_each`. -/
def Cowtree.inorder : Cowtree K V → List (K × V)
  | .leaf => []
  | .node l k v r => inorder l ++ (k, v) :: inorder r

/-! ### The event log of src/slam/slam_data.hpp

`slam_data` stores the controls and a map from feature id to that feature's
observation timeline (a `flat_map` from timestep to observation).  The feature
map of the C++ code is a `std::map` ordered by feature id; ordering of feature
entries is irrelevant to the claims below, so an association list in insertion
order stands in for it.  `foreach_listener` passes identical arguments to each
listener, so the broadcast is modelled as a single optional event value. -/

structure SlamData (C O : Type) where
  controls : List C
  features : List (ℕ × List (ℕ × O))
  deriving DecidableEq, Repr

variable {C O : Type}

/-- `slam_data::current_timestep`: the number of controls. -/
def SlamData.current_timestep (d : SlamData C O) : ℕ :=
  d.controls.length

/-- Insertion into a `boost::container::flat_map` keyed by timestep: the entry
is placed at its sorted position; if the key is already present the map is
unchanged and the returned flag is `false` (mirroring `obs_ins.second`). -/
def flatMapInsert (l : List (ℕ × O)) (t : ℕ) (x : O) : List (ℕ × O) × Bool :=
  match l with
  | [] => ([(t, x)], true)
  | (s, y) :: rest =>
    if t < s then ((t, x) :: (s, y) :: rest, true)
    else if s < t then
      let r := flatMapInsert rest t x
      ((s, y) :: r.1, r.2)
    else ((s, y) :: rest, false)

/-- Replace the timeline stored under `fid`, or append a new entry when the
feature id is not present (mirroring `m_features.insert`). -/
def storeTimeline (fs : List (ℕ × List (ℕ × O))) (fid : ℕ) (tl : List (ℕ × O)) :
    List (ℕ × List (ℕ × O)) :=
  match fs with
  | [] => [(fid, tl)]
  | (k, v) :: rest =>
    if k = fid then (k, tl) :: rest
    else (k, v) :: storeTimeline rest fid tl

/-- `slam_data::add_observation` (src/slam/slam_data.hpp lines 147-162): the
feature entry is created if absent (`feature_ins.second` records whether it
was new), then `(current_timestep, obs)` is inserted into the timeline; if an
observation already exists at this timestep the function returns without
notifying listeners.  Otherwise the event `(t, feature_id, obs, new_feature)`
is broadcast. -/
def SlamData.add_observation (d : SlamData C O) (fid : ℕ) (obs : O) :
    SlamData C O × Option (ℕ × ℕ × O × Bool) :=
  let t := d.current_timestep
  let stored := d.features.lookup fid
  let featNew := stored.isNone
  let timeline := stored.getD []
  let r := flatMapInsert timeline t obs
  if r.2 then
    ({ d with features := storeTimeline d.features fid r.1 }, some (t, fid, obs, featNew))
  else
    (d, none)

/-- `slam_data::features_begin` (src/slam/slam_data.hpp line 85): the start of
the feature map, modelled as index 0 into the feature list. -/
def SlamData.features_begin (_ : SlamData C O) : ℕ := 0

/-- `slam_data::features_end` (src/slam/slam_data.hpp line 86): the source
returns `m_features.begin()`, i.e. again index 0. -/
def SlamData.features_end (_ : SlamData C O) : ℕ := 0

/-- The features visited when iterating from `features_begin()` to
`features_end()`. -/
def SlamData.featuresRange (d : SlamData C O) : List (ℕ × List (ℕ × O)) :=
  (d.features.drop d.features_begin).take (d.features_end - d.features_begin)

/-- `slam_data::find_feature`. -/
def SlamData.find_feature (d : SlamData C O) (fid : ℕ) : Option (List (ℕ × O)) :=
  d.features.lookup fid

/-- `slam_data::feature_data` (`m_features.at`, defined on present ids). -/
def SlamData.feature_data (d : SlamData C O) (fid : ℕ) : List (ℕ × O) :=
  (d.features.lookup fid).getD []

/-- `slam_data::feature_observation` (`m_features.at(id).at(t)`). -/
def SlamData.feature_observation (d : SlamData C O) (fid t : ℕ) : Option O :=
  (d.feature_data fid).lookup t

/-! ### Fenwick tree over nonnegative weights (spec-modelled)

The `utility::bitree<double>` instances holding MCMC edge weights support
`accumulate` (prefix sums) and `binary_search`.  Modelled from the spec
(src/utility/bitree.hpp is not among the sources): `accumulate(i)` is the sum
of the first `i` elements and `binary_search(x)` is the smallest `i` such that
`accumulate(i+1) > x`, or `n` when no prefix exceeds `x`. -/

/-- Modelled from the spec: `bitree::accumulate (i)`, the sum of the first `i`
weights. -/
def prefixSumQ (ws : List ℚ) (i : ℕ) : ℚ :=
  (ws.take i).sum

/-- Modelled from the spec: `bitree::binary_search (x)`, the smallest index
whose inclusive prefix sum exceeds `x` (`n` when there is none). -/
def binary_search (ws : List ℚ) (x : ℚ) : ℕ :=
  ((List.range ws.length).find? fun i => decide (x < prefixSumQ ws (i + 1))).getD ws.length

/-! ### Edge selection in mcmc_slam::update

`mcmc_slam::update` (src/slam/mcmc_slam.hpp lines 274-302) draws the edge
class with `(state_weight+feature_weight) * random.uniform() < state_weight`,
then runs `timestep_type timestep; while (timestep >= current_timestep())
timestep = timestep_type (state_weights.binary_search (state_weight *
random.uniform()));`.  `timestep_type` default-constructs to 0, so the loop
guard compares 0 with the number of state edges on entry.  The loop is
modelled with the successive `random.uniform()` draws supplied as a list. -/

/-- Class choice of `mcmc_slam::update`: a state edge is picked when
`(state_weight + feature_weight) * u < state_weight`. -/
def picksStateClass (stateWeight featureWeight u : ℚ) : Bool :=
  decide ((stateWeight + featureWeight) * u < stateWeight)

/-- The state-edge selection loop of `mcmc_slam::update`, entered with
`timestep = 0` (the value produced by `timestep_type`'s default constructor):
while `T ≤ timestep`, replace `timestep` by
`binary_search (state_weight * uniform())` using the next draw. -/
def stateEdgeSelect (T : ℕ) (ws : List ℚ) (stateWeight : ℚ) :
    List ℚ → ℕ → ℕ
  | [], t => t
  | d :: ds, t =>
    if T ≤ t then stateEdgeSelect T ws stateWeight ds (binary_search ws (stateWeight * d))
    else t

/-! ### The Metropolis acceptance test of mcmc_slam::update (EdgeType&&)

With `use_edge_weight` set (src/slam/mcmc_slam.hpp lines 321-326) the code
computes `normaliser = 1 + (new_weight - old_weight)/weight_sum` with
`new_weight = exp(new_log_weight)`, `old_weight = exp(old_log_weight)`, and
accepts iff `normaliser * random.uniform() < exp(log_ratio + new_log_weight -
old_log_weight)`.  The exponential enters as an explicit function parameter so
that the definition stays executable; the claim theorem instantiates it at
`Real.exp`. -/

/-- Acceptance predicate of `mcmc_slam::update (EdgeType&&, true)` as a
function of the uniform draw `u`. -/
def mcmcAcceptance (E : ℝ → ℝ) (logRatio newLogWeight oldLogWeight weightSum u : ℝ) :
    Prop :=
  (1 + (E newLogWeight - E oldLogWeight) / weightSum) * u <
    E (logRatio + newLogWeight - oldLogWeight)

/-! ### FastSLAM particle weight update

`fastslam::particle_state_update` (src/slam/fastslam.hpp lines 251-295)
samples the new state from the refined proposal and returns
`exp (obs_log_likelihood + state_log_likelihood - proposal_log_likelihood)`,
where `obs_log_likelihood` is `particle_log_weight` (lines 298-316): the sum
over this step's already-seen observations of the predicted observation
distribution's log-likelihood at the observation mean.  The UKF machinery
(src/utility/unscented.hpp is not among the sources) is abstracted: `prior`
is the control-propagated state distribution, `proposal` the refined proposal
distribution, `sample` the state drawn from it, and `pred x i` the
UKF-predicted observation distribution for seen feature `i` at state `x`. -/

structure RDist (α : Type) where
  ll : α → ℝ

structure SeenObs (O : Type) where
  id : ℕ
  mean : O

/-- `fastslam::particle_log_weight`: fold of `log_weight += predicted_obs.
log_likelihood (obs.observation.mean())` over the seen observations. -/
def particle_log_weight {S O : Type} (pred : S → ℕ → RDist O) (x : S)
    (obsList : List (SeenObs O)) : ℝ :=
  obsList.foldl (fun w o => w + (pred x o.id).ll o.mean) 0

/-- `fastslam::particle_state_update`, reduced to its weight computation: the
newly sampled state together with
`exp (obs_log_likelihood + state_log_likelihood - proposal_log_likelihood)`,
all three log-likelihoods evaluated at the sampled state. -/
def particle_state_update {S O : Type} (E : ℝ → ℝ) (prior proposal : RDist S)
    (sample : S) (pred : S → ℕ → RDist O) (obsList : List (SeenObs O)) : S × ℝ :=
  (sample,
    E (particle_log_weight pred sample obsList + prior.ll sample - proposal.ll sample))

/-! ### Control edges of g2o_slam

`g2o_slam::edge_control` (src/slam/g2o_slam.hpp lines 118-146) stores the
control mean as measurement, sets the information matrix to
`chol_cov_inv.transpose() * chol_cov_inv` where `chol_cov_inv` solves
`L * chol_cov_inv = I` for the lower-triangular factor `L` (the in-place
triangular solve), and computes the error
`subtract (observe (-v1 + v2), measurement)`.  `g2o_slam::control`
(lines 316-337) appends a new pose vertex estimated as
`v0 + (-init(t) + init(t+1))` and an `edge_control` between the previous last
vertex and the new one. -/

structure G2OControlModel (n : ℕ) (G : Type) where
  mean : Fin n → ℝ
  chol_cov : Matrix (Fin n) (Fin n) ℝ
  observe : G → Fin n → ℝ
  subtract : (Fin n → ℝ) → (Fin n → ℝ) → Fin n → ℝ

structure EdgeControl (n : ℕ) (G : Type) where
  v0 : ℕ
  v1 : ℕ
  measurement : Fin n → ℝ
  information : Matrix (Fin n) (Fin n) ℝ
  error : G → G → Fin n → ℝ

/-- `edge_control`'s constructor and `computeError`, between vertex indices
`i` and `j`; `Linv` is the result of the in-place triangular solve
`L * Linv = I`. -/
def mkEdgeControl {n : ℕ} {G : Type} [AddGroup G] (i j : ℕ)
    (Linv : Matrix (Fin n) (Fin n) ℝ) (c : G2OControlModel n G) : EdgeControl n G :=
  { v0 := i
    v1 := j
    measurement := c.mean
    information := Linv.transpose * Linv
    error := fun e0 e1 => c.subtract (c.observe (-e0 + e1)) c.mean }

structure G2OState (n : ℕ) (G : Type) where
  stateVerts : List G
  controlEdges : List (EdgeControl n G)

/-- `g2o_slam::control`: append the new pose vertex
`v0->estimate() + initial_estimate` and the control edge between the previous
last vertex (index `size-1`) and the new vertex (index `size`). -/
def g2o_control {n : ℕ} {G : Type} [AddGroup G] (st : G2OState n G)
    (initialEstimate : G) (c : G2OControlModel n G)
    (Linv : Matrix (Fin n) (Fin n) ℝ) : G2OState n G :=
  let v0est := st.stateVerts.getLast?.getD 0
  { stateVerts := st.stateVerts ++ [v0est + initialEstimate]
    controlEdges := st.controlEdges ++
      [mkEdgeControl (st.stateVerts.length - 1) st.stateVerts.length Linv c] }

/-! ### The MCMC-SLAM estimator of src/slam/mcmc_slam.hpp

States form an additive (not necessarily commutative) group `G` acting on
features of type `F`, mirroring the requirement stated in the source that
state edge labels form a group acting by `state + feature`.  Distributions are
reduced to the data the estimator reads from them: a mean and a rational
log-likelihood function.  The trajectory bitree is modelled from the spec
(src/utility/bitree.hpp is not among the sources): the pose at time `t` is
the left-to-right composition of the first `t` increments and
`accumulate(a,b) = -pose(a) + pose(b)`.

The estimator state carries, synchronously with the event log it has
processed so far, the controls, the state-edge estimates, and for each
feature its observation timeline together with the parent timestep and the
feature-edge estimate (`feature_estimate` in the source).  Random draws do
not influence which label is proposed or whether it is accepted beyond a
boolean and a label, so `update` takes the proposed label and the accept
decision as explicit parameters, covering every outcome of the random
source. -/

structure ObsModel (F : Type) where
  mean : F
  ll : F → ℚ

structure CtrlModel (G : Type) where
  mean : G
  ll : G → ℚ

/-- `mcmc_slam::feature_estimate`: the feature's observation timeline (the
`flat_map` of `slam_data`, ordered by timestep), its parent timestep, and the
current feature-edge label. -/
structure FeatureEst (F : Type) where
  obs : List (ℕ × ObsModel F)
  parent : ℕ
  est : F

/-- The private data of `mcmc_slam` relevant to its likelihood bookkeeping,
together with the observation data it has incorporated.  Edge weights feed
only the (here universally quantified) selection and accept decisions and are
therefore not tracked. -/
structure MState (G F : Type) where
  controls : List (CtrlModel G)
  stateEst : List G
  features : List (ℕ × FeatureEst F)
  ll : ℚ

/-- Modelled from the spec: `bitree<state_type>::accumulate (t)`, the
composition of the first `t` state increments (src/utility/bitree.hpp is not
among the sources). -/
def prefixComp {G : Type} [AddGroup G] (inc : List G) (t : ℕ) : G :=
  (inc.take t).foldl (· + ·) 0

/-- Modelled from the spec: `bitree::accumulate (a, b) = -pose(a) + pose(b)`. -/
def accum {G : Type} [AddGroup G] (inc : List G) (a b : ℕ) : G :=
  -prefixComp inc a + prefixComp inc b

/-- The loop of `mcmc_slam::obs_likelihood_ratio` (src/slam/mcmc_slam.hpp
lines 388-413): iterate over the observation range, skipping the parent
timestep, composing both hypothetical observations with the state change from
the previous considered timestep, and accumulating the log-likelihood
differences. -/
def obsLRgo {G F : Type} [AddGroup G] [AddAction G F] (inc : List G) (parent : ℕ) :
    List (ℕ × ObsModel F) → ℕ → F → F → ℚ
  | [], _, _, _ => 0
  | (s, m) :: rest, t, newObs, oldObs =>
    if s = parent then obsLRgo inc parent rest t newObs oldObs
    else
      (m.ll (accum inc s t +ᵥ newObs) - m.ll (accum inc s t +ᵥ oldObs)) +
        obsLRgo inc parent rest s (accum inc s t +ᵥ newObs) (accum inc s t +ᵥ oldObs)

/-- `mcmc_slam::obs_likelihood_ratio`: the old hypothetical observation is
initialised to `accumulate (obs_timestep, parent) + estimate`. -/
def obsLR {G F : Type} [AddGroup G] [AddAction G F] (inc : List G) (f : FeatureEst F)
    (range : List (ℕ × ObsModel F)) (t0 : ℕ) (newObs : F) : ℚ :=
  obsLRgo inc f.parent range t0 newObs (accum inc t0 f.parent +ᵥ f.est)

/-- `mcmc_slam::edge_log_likelihood_ratio (state_edge)` (src/slam/mcmc_slam.hpp
lines 349-376): for each feature, split its timeline at `upper_bound(t)`
(modelled by `takeWhile`/`dropWhile` on the sorted timeline) and score the
corresponding side of the cut. -/
def edgeLRstate {G F : Type} [AddGroup G] [AddAction G F] (st : MState G F)
    (t : ℕ) (proposed : G) : ℚ :=
  (st.features.map fun p =>
    if t < p.2.parent then
      obsLR st.stateEst p.2 (p.2.obs.takeWhile fun q => decide (q.1 ≤ t)) t
        ((proposed + accum st.stateEst (t + 1) p.2.parent) +ᵥ p.2.est)
    else
      obsLR st.stateEst p.2 (p.2.obs.dropWhile fun q => decide (q.1 ≤ t)) (t + 1)
        ((-proposed + accum st.stateEst t p.2.parent) +ᵥ p.2.est)).sum

/-- `mcmc_slam::edge_log_likelihood_ratio (feature_edge)` (lines 379-385):
score the feature's whole timeline from its parent timestep. -/
def edgeLRfeature {G F : Type} [AddGroup G] [AddAction G F] (st : MState G F)
    (f : FeatureEst F) (proposed : F) : ℚ :=
  obsLR st.stateEst f f.obs f.parent proposed

/-- The feature edge's own distribution, `feature.data->at (parent_timestep)`. -/
def treeObs {F : Type} (f : FeatureEst F) : ObsModel F :=
  match f.obs.find? fun q => decide (q.1 = f.parent) with
  | some q => q.2
  | none => ⟨f.est, fun _ => 0⟩

instance {G : Type} [AddGroup G] : Inhabited (CtrlModel G) :=
  ⟨⟨0, fun _ => 0⟩⟩

/-- `mcmc_slam::update (EdgeType&&)` on a state edge (src/slam/mcmc_slam.hpp
lines 305-340): on acceptance overwrite the edge label and add
`log_ratio - old_log_likelihood + new_log_likelihood` to the running
log-likelihood.  The proposed label and accept decision stand for the draws
of the random source. -/
def updStateEdge {G F : Type} [AddGroup G] [AddAction G F] (st : MState G F)
    (t : ℕ) (proposed : G) (accept : Bool) : MState G F :=
  if accept then
    let dist := st.controls.getD t default
    let logRatio := edgeLRstate st t proposed
    let oldLL := dist.ll (st.stateEst.getD t 0)
    let newLL := dist.ll proposed
    { st with
      stateEst := st.stateEst.set t proposed
      ll := st.ll + logRatio - oldLL + newLL }
  else st

/-- `mcmc_slam::update (EdgeType&&)` on the `i`-th feature edge. -/
def updFeatureEdge {G F : Type} [AddGroup G] [AddAction G F] (st : MState G F)
    (i : ℕ) (proposed : F) (accept : Bool) : MState G F :=
  if accept then
    match st.features[i]? with
    | none => st
    | some p =>
      let dist := treeObs p.2
      let logRatio := edgeLRfeature st p.2 proposed
      let oldLL := dist.ll p.2.est
      let newLL := dist.ll proposed
      { st with
        features := st.features.set i (p.1, { p.2 with est := proposed })
        ll := st.ll + logRatio - oldLL + newLL }
  else st

/-- `mcmc_slam::add_state_edge` (lines 187-206) without an initialiser: the
estimate is the control mean, and the control's log-likelihood at it is added
to the running log-likelihood. -/
def addStateEdge {G F : Type} (st : MState G F) (c : CtrlModel G) : MState G F :=
  { st with
    controls := st.controls ++ [c]
    stateEst := st.stateEst ++ [c.mean]
    ll := st.ll + c.ll c.mean }

/-- Processing one observation event inside `mcmc_slam::timestep`
(lines 233-269), synchronously with the event log: a first observation of the
feature becomes the feature edge (`add_feature_edge`, estimate the
observation mean, parent the current timestep); a repeated observation is a
non-tree edge whose log-likelihood at
`accumulate (next_timestep, parent) + estimate` is added.  In both cases the
observation is recorded on the feature's timeline. -/
def processObs {G F : Type} [AddGroup G] [AddAction G F] (st : MState G F)
    (fid : ℕ) (m : ObsModel F) : MState G F :=
  let t := st.stateEst.length
  match st.features.findIdx? fun p => decide (p.1 = fid) with
  | some i =>
    match st.features[i]? with
    | some p =>
      { st with
        features := st.features.set i (p.1, { p.2 with obs := p.2.obs ++ [(t, m)] })
        ll := st.ll + m.ll (accum st.stateEst t p.2.parent +ᵥ p.2.est) }
    | none => st
  | none =>
    { st with
      features := st.features ++ [(fid, ⟨[(t, m)], t, m.mean⟩)]
      ll := st.ll + m.ll m.mean }

/-- One interaction with the estimator: a `timestep` call processing one new
timestep (with its control, absent exactly for timestep 0, and the
observations delivered for it), or one MCMC update on a state or feature
edge. -/
inductive MOp (G F : Type) where
  | step (c : Option (CtrlModel G)) (obs : List (ℕ × ObsModel F))
  | updState (t : ℕ) (proposed : G) (accept : Bool)
  | updFeat (i : ℕ) (proposed : F) (accept : Bool)

/-- The state-edge insertion at the head of one `timestep` iteration:
`if (next_timestep > 0) add_state_edge()`; the control is absent exactly for
the first processed timestep. -/
def stepBase {G F : Type} (st : MState G F) : Option (CtrlModel G) → MState G F
  | some cc => addStateEdge st cc
  | none => st

def applyOp {G F : Type} [AddGroup G] [AddAction G F] (st : MState G F) :
    MOp G F → MState G F
  | .step c obs => obs.foldl (fun s x => processObs s x.1 x.2) (stepBase st c)
  | .updState t proposed accept => updStateEdge st t proposed accept
  | .updFeat i proposed accept => updFeatureEdge st i proposed accept

def runMCMC {G F : Type} [AddGroup G] [AddAction G F] (st : MState G F) :
    List (MOp G F) → MState G F
  | [] => st
  | op :: ops => runMCMC (applyOp st op) ops

/-- Admissibility of one operation: `update` addresses an existing edge (as
the selection in `mcmc_slam::update` is meant to), and a `timestep` delivers
at most one observation per feature and no observation duplicating an
existing `(feature, timestep)` pair — the invariant the event log guarantees
to its listeners. -/
def okOp {G F : Type} [AddGroup G] [AddAction G F] (st : MState G F) :
    MOp G F → Prop
  | .step c obs =>
    (obs.map Prod.fst).Nodup ∧
    ∀ x ∈ obs, ∀ p ∈ (stepBase st c).features, p.1 = x.1 →
      ∀ q ∈ p.2.obs, q.1 < (stepBase st c).stateEst.length
  | .updState t _ _ => t < st.stateEst.length
  | .updFeat i _ _ => i < st.features.length

def okRun {G F : Type} [AddGroup G] [AddAction G F] (st : MState G F) :
    List (MOp G F) → Prop
  | [] => True
  | op :: ops => okOp st op ∧ okRun (applyOp st op) ops

/-- Full recomputation of one feature's contribution: the feature edge's
log-likelihood at the feature estimate, plus, for each non-tree observation,
its log-likelihood at `accumulate (timestep, parent) + estimate`. -/
def featureRecompute {G F : Type} [AddGroup G] [AddAction G F] (inc : List G)
    (f : FeatureEst F) : ℚ :=
  (f.obs.map fun q =>
    if q.1 = f.parent then q.2.ll f.est
    else q.2.ll (accum inc q.1 f.parent +ᵥ f.est)).sum

def recomputeFeatures {G F : Type} [AddGroup G] [AddAction G F] (inc : List G)
    (fs : List (ℕ × FeatureEst F)) : ℚ :=
  (fs.map fun p => featureRecompute inc p.2).sum

def controlsSum {G F : Type} (st : MState G F) : ℚ :=
  ((st.controls.zip st.stateEst).map fun p => p.1.ll p.2).sum

/-- Full recomputation of the model's log-likelihood from `state_estimates`
and `feature_estimates`: state edges, feature (tree) edges and non-tree
observations. -/
def recompute {G F : Type} [AddGroup G] [AddAction G F] (st : MState G F) : ℚ :=
  controlsSum st + recomputeFeatures st.stateEst st.features

/-- Well-formedness of a feature entry relative to the trajectory length:
the timeline is sorted by timestep, bounded by the trajectory length, and
starts at the parent timestep. -/
def WFfeat {F : Type} (T : ℕ) (f : FeatureEst F) : Prop :=
  f.obs.Pairwise (fun a b => a.1 < b.1) ∧
  (∀ q ∈ f.obs, q.1 ≤ T) ∧
  f.obs.head?.map Prod.fst = some f.parent

/-- Structural invariant of the estimator state. -/
def WF {G F : Type} [AddGroup G] [AddAction G F] (st : MState G F) : Prop :=
  st.controls.length = st.stateEst.length ∧
  ∀ p ∈ st.features, WFfeat st.stateEst.length p.2

def MState.empty (G F : Type) : MState G F :=
  ⟨[], [], [], 0⟩

instance {F : Type} (T : ℕ) (f : FeatureEst F) : Decidable (WFfeat T f) := by
  unfold WFfeat
  infer_instance

instance {G F : Type} [AddGroup G] [AddAction G F] (st : MState G F) :
    Decidable (WF st) := by
  unfold WF
  infer_instance

instance {G F : Type} [AddGroup G] [AddAction G F] (st : MState G F) :
    (op : MOp G F) → Decidable (okOp st op)
  | .step c obs => by unfold okOp; infer_instance
  | .updState t p a => by unfold okOp; infer_instance
  | .updFeat i p a => by unfold okOp; infer_instance

instance okRunDecidable {G F : Type} [AddGroup G] [AddAction G F] :
    (st : MState G F) → (ops : List (MOp G F)) → Decidable (okRun st ops)
  | _, [] => .isTrue trivial
  | st, op :: ops =>
    @instDecidableAnd _ _ inferInstance (okRunDecidable (applyOp st op) ops)

/-- A concrete interaction sequence used to evaluate the log-likelihood
invariant: an initial observation of feature 5, a timestep with a control and
two observations (one repeated, one fresh), an accepted state-edge update, an
accepted feature-edge update and a rejected state-edge update. -/
def sampleOps : List (MOp ℤ ℤ) :=
  [ .step none [(5, ⟨2, fun x => (x : ℚ)⟩)],
    .step (some ⟨3, fun x => (x : ℚ)⟩)
      [(5, ⟨1, fun x => (x : ℚ) / 2⟩), (9, ⟨4, fun x => (x : ℚ) * 2⟩)],
    .updState 0 4 true,
    .updFeat 0 7 true,
    .updState 0 2 false ]

/-- A concrete estimator state used to evaluate the state-edge re-scoring
characterisation: two state edges and one feature observed at timesteps 0
(its parent) and 2. -/
def sampleMState : MState ℤ ℤ :=
  { controls := [⟨1, fun x => (x : ℚ)⟩, ⟨1, fun x => (x : ℚ)⟩]
    stateEst := [1, 2]
    features := [(5, ⟨[(0, ⟨3, fun x => (x : ℚ)⟩), (2, ⟨4, fun x => (x : ℚ) / 3⟩)], 0, 3⟩)]
    ll := 0 }

theorem foldl_add_init {G : Type} [AddGroup G] (l : List G) (x : G) :
    l.foldl (· + ·) x = x + l.foldl (· + ·) 0 := by
  induction l generalizing x with
  | nil => simp
  | cons a rest ih =>
    simp only [List.foldl_cons]
    rw [ih (x + a), ih (0 + a), zero_add, add_assoc]

theorem prefixComp_split {G : Type} [AddGroup G] (inc : List G) (a s : ℕ) (h : a ≤ s) :
    prefixComp inc s =
      prefixComp inc a + ((inc.drop a).take (s - a)).foldl (· + ·) 0 := by
  have hs : s = a + (s - a) := (Nat.add_sub_cancel' h).symm
  rw [prefixComp]
  conv_lhs => rw [hs]
  rw [List.take_add, List.foldl_append, foldl_add_init]
  rfl

theorem accum_eq_seg {G : Type} [AddGroup G] (inc : List G) (a b : ℕ) (h : a ≤ b) :
    accum inc a b = ((inc.drop a).take (b - a)).foldl (· + ·) 0 := by
  rw [accum, prefixComp_split inc a b h, neg_add_cancel_left]

theorem accum_trans {G : Type} [AddGroup G] (inc : List G) (a b c : ℕ) :
    accum inc a b + accum inc b c = accum inc a c := by
  rw [accum, accum, accum, add_assoc, add_neg_cancel_left]

theorem vadd_accum {G F : Type} [AddGroup G] [AddAction G F] (inc : List G)
    (a b c : ℕ) (x : F) :
    accum inc a b +ᵥ (accum inc b c +ᵥ x) = accum inc a c +ᵥ x := by
  rw [← add_vadd, accum_trans]

theorem accum_self {G : Type} [AddGroup G] (inc : List G) (a : ℕ) :
    accum inc a a = 0 :=
  neg_add_cancel _

theorem take_set_of_le {α : Type} (l : List α) (t s : ℕ) (g : α) (h : s ≤ t) :
    (l.set t g).take s = l.take s := by
  induction l generalizing t s with
  | nil => simp
  | cons a rest ih =>
    cases s with
    | zero => simp
    | succ s' =>
      cases t with
      | zero => omega
      | succ t' =>
        simp only [List.set_cons_succ, List.take_succ_cons]
        rw [ih t' s' (Nat.le_of_succ_le_succ h)]

theorem drop_set_of_lt {α : Type} (l : List α) (t a : ℕ) (g : α) (h : t < a) :
    (l.set t g).drop a = l.drop a := by
  induction l generalizing t a with
  | nil => simp
  | cons x rest ih =>
    cases a with
    | zero => omega
    | succ a' =>
      cases t with
      | zero => simp
      | succ t' =>
        simp only [List.set_cons_succ, List.drop_succ_cons]
        exact ih t' a' (Nat.lt_of_succ_lt_succ h)

theorem drop_set_self {α : Type} (l : List α) (t : ℕ) (g : α) (h : t < l.length) :
    (l.set t g).drop t = g :: l.drop (t + 1) := by
  induction l generalizing t with
  | nil => simp at h
  | cons x rest ih =>
    cases t with
    | zero => simp
    | succ t' =>
      simp only [List.set_cons_succ, List.drop_succ_cons]
      exact ih t' (Nat.lt_of_succ_lt_succ h)

theorem prefixComp_set_le {G : Type} [AddGroup G] (inc : List G) (t s : ℕ) (g : G)
    (h : s ≤ t) : prefixComp (inc.set t g) s = prefixComp inc s := by
  rw [prefixComp, take_set_of_le _ _ _ _ h]
  rfl

theorem prefixComp_set_ge {G : Type} [AddGroup G] (inc : List G) (t s : ℕ) (g : G)
    (ht : t < inc.length) (hs : t + 1 ≤ s) :
    prefixComp (inc.set t g) s = prefixComp inc t + (g + accum inc (t + 1) s) := by
  have h1 := prefixComp_split (inc.set t g) (t + 1) s hs
  have h2 : (inc.set t g).drop (t + 1) = inc.drop (t + 1) :=
    drop_set_of_lt _ _ _ _ (Nat.lt_succ_self t)
  have h3 : prefixComp (inc.set t g) (t + 1) = prefixComp inc t + g := by
    rw [prefixComp_split (inc.set t g) t (t + 1) (Nat.le_succ t),
      prefixComp_set_le inc t t g le_rfl, drop_set_self inc t g ht]
    simp
  rw [h1, h2, h3, ← accum_eq_seg inc (t + 1) s hs, add_assoc]

theorem neg_add_add_left_cancel {G : Type} [AddGroup G] (x y z : G) :
    -(x + y) + (x + z) = -y + z := by
  rw [neg_add_rev, add_assoc, neg_add_cancel_left]

theorem accum_set_low {G : Type} [AddGroup G] (inc : List G) (t a b : ℕ) (g : G)
    (ha : a ≤ t) (hb : b ≤ t) :
    accum (inc.set t g) a b = accum inc a b := by
  rw [accum, accum, prefixComp_set_le _ _ _ _ ha, prefixComp_set_le _ _ _ _ hb]

theorem accum_set_high {G : Type} [AddGroup G] (inc : List G) (t a b : ℕ) (g : G)
    (ht : t < inc.length) (ha : t + 1 ≤ a) (hb : t + 1 ≤ b) :
    accum (inc.set t g) a b = accum inc a b := by
  have h1 := prefixComp_set_ge inc t a g ht ha
  have h2 := prefixComp_set_ge inc t b g ht hb
  simp only [accum] at h1 h2 ⊢
  rw [h1, h2, neg_add_add_left_cancel, neg_add_add_left_cancel, neg_add_add_left_cancel]

theorem accum_set_cross_up {G : Type} [AddGroup G] (inc : List G) (t s b : ℕ) (g : G)
    (ht : t < inc.length) (hs : s ≤ t) (hb : t + 1 ≤ b) :
    accum (inc.set t g) s b = accum inc s t + (g + accum inc (t + 1) b) := by
  simp only [accum]
  rw [prefixComp_set_le _ _ _ _ hs, prefixComp_set_ge _ _ _ _ ht hb]
  exact (add_assoc _ _ _).symm

theorem accum_set_cross_down {G : Type} [AddGroup G] (inc : List G) (t s b : ℕ) (g : G)
    (ht : t < inc.length) (hb : b ≤ t) (hs : t + 1 ≤ s) :
    accum (inc.set t g) s b = accum inc s (t + 1) + (-g + accum inc t b) := by
  simp only [accum]
  rw [prefixComp_set_ge _ _ _ _ ht hs, prefixComp_set_le _ _ _ _ hb]
  simp only [neg_add_rev, add_assoc]
  rw [accum, neg_add_rev, neg_neg, add_assoc]

theorem obsLRgo_eq {G F : Type} [AddGroup G] [AddAction G F] (inc : List G)
    (parent : ℕ) (l : List (ℕ × ObsModel F)) :
    ∀ (t0 : ℕ) (nO oO : F),
    obsLRgo inc parent l t0 nO oO =
      (l.map fun q =>
        if q.1 = parent then 0
        else q.2.ll (accum inc q.1 t0 +ᵥ nO) - q.2.ll (accum inc q.1 t0 +ᵥ oO)).sum := by
  induction l with
  | nil => intro t0 nO oO; simp [obsLRgo]
  | cons q rest ih =>
    intro t0 nO oO
    obtain ⟨s, m⟩ := q
    by_cases hs : s = parent
    · simp only [obsLRgo, hs, if_true, List.map_cons, List.sum_cons, ih]
      simp
    · simp only [obsLRgo, hs, if_false, List.map_cons, List.sum_cons, ih]
      have hfun :
          (fun q' : ℕ × ObsModel F =>
            if q'.1 = parent then (0 : ℚ)
            else q'.2.ll (accum inc q'.1 s +ᵥ (accum inc s t0 +ᵥ nO)) -
              q'.2.ll (accum inc q'.1 s +ᵥ (accum inc s t0 +ᵥ oO))) =
          (fun q' : ℕ × ObsModel F =>
            if q'.1 = parent then (0 : ℚ)
            else q'.2.ll (accum inc q'.1 t0 +ᵥ nO) -
              q'.2.ll (accum inc q'.1 t0 +ᵥ oO)) := by
        funext q'
        by_cases h : q'.1 = parent
        · simp [h]
        · simp [h, vadd_accum]
      rw [hfun]

theorem takeWhile_eq_filter_of_sorted {F : Type} (l : List (ℕ × ObsModel F)) (t : ℕ)
    (h : l.Pairwise (fun a b => a.1 < b.1)) :
    (l.takeWhile fun q => decide (q.1 ≤ t)) = l.filter fun q => decide (q.1 ≤ t) := by
  induction l with
  | nil => rfl
  | cons a rest ih =>
    rcases List.pairwise_cons.mp h with ⟨ha, hrest⟩
    by_cases hat : a.1 ≤ t
    · simp [List.takeWhile_cons, List.filter_cons, hat, ih hrest]
    · have hnil : (rest.filter fun q => decide (q.1 ≤ t)) = [] := by
        rw [List.filter_eq_nil_iff]
        intro q hq
        have := ha q hq
        simp only [decide_eq_true_eq]
        omega
      simp [List.takeWhile_cons, List.filter_cons, hat, hnil]

theorem dropWhile_eq_filter_of_sorted {F : Type} (l : List (ℕ × ObsModel F)) (t : ℕ)
    (h : l.Pairwise (fun a b => a.1 < b.1)) :
    (l.dropWhile fun q => decide (q.1 ≤ t)) = l.filter fun q => decide (t < q.1) := by
  induction l with
  | nil => rfl
  | cons a rest ih =>
    rcases List.pairwise_cons.mp h with ⟨ha, hrest⟩
    by_cases hat : a.1 ≤ t
    · have hnat : ¬ t < a.1 := by omega
      simp [List.dropWhile_cons, List.filter_cons, hat, hnat, ih hrest]
    · have hself : (rest.filter fun q => decide (t < q.1)) = rest := by
        rw [List.filter_eq_self]
        intro q hq
        have := ha q hq
        simp only [decide_eq_true_eq]
        omega
      have hta : t < a.1 := by omega
      simp [List.dropWhile_cons, List.filter_cons, hat, hta, hself]

theorem sum_map_sub {α : Type} (l : List α) (f g : α → ℚ) :
    (l.map fun x => f x - g x).sum = (l.map f).sum - (l.map g).sum := by
  induction l with
  | nil => simp
  | cons a rest ih =>
    simp only [List.map_cons, List.sum_cons, ih]
    ring

theorem sum_map_filter_eq {α : Type} (l : List α) (p : α → Bool) (f : α → ℚ) :
    ((l.filter p).map f).sum = (l.map fun x => if p x then f x else 0).sum := by
  induction l with
  | nil => rfl
  | cons a rest ih =>
    by_cases ha : p a
    · simp [List.filter_cons, ha, ih]
    · simp [List.filter_cons, ha, ih]

theorem stateEdgeTerm_far {G F : Type} [AddGroup G] [AddAction G F] (inc : List G)
    (f : FeatureEst F) (t : ℕ) (g : G) (ht : t < inc.length) (hpar : t < f.parent)
    (hsort : f.obs.Pairwise fun a b => a.1 < b.1) :
    obsLR inc f (f.obs.takeWhile fun q => decide (q.1 ≤ t)) t
        ((g + accum inc (t + 1) f.parent) +ᵥ f.est) =
      ((f.obs.filter fun q => decide (q.1 ≤ t)).map fun q =>
        q.2.ll (accum (inc.set t g) q.1 f.parent +ᵥ f.est) -
          q.2.ll (accum inc q.1 f.parent +ᵥ f.est)).sum := by
  rw [obsLR, obsLRgo_eq, takeWhile_eq_filter_of_sorted _ _ hsort]
  apply congrArg List.sum
  apply List.map_congr_left
  intro q hq
  have hqt : q.1 ≤ t := by
    have := (List.mem_filter.mp hq).2
    simpa using this
  have hqp : ¬ q.1 = f.parent := by omega
  have hnew : accum inc q.1 t +ᵥ ((g + accum inc (t + 1) f.parent) +ᵥ f.est) =
      accum (inc.set t g) q.1 f.parent +ᵥ f.est := by
    rw [← add_vadd, accum_set_cross_up inc t q.1 f.parent g ht hqt hpar]
  have hold : accum inc q.1 t +ᵥ (accum inc t f.parent +ᵥ f.est) =
      accum inc q.1 f.parent +ᵥ f.est := vadd_accum inc q.1 t f.parent f.est
  rw [if_neg hqp, hnew, hold]

theorem stateEdgeTerm_near {G F : Type} [AddGroup G] [AddAction G F] (inc : List G)
    (f : FeatureEst F) (t : ℕ) (g : G) (ht : t < inc.length) (hpar : f.parent ≤ t)
    (hsort : f.obs.Pairwise fun a b => a.1 < b.1) :
    obsLR inc f (f.obs.dropWhile fun q => decide (q.1 ≤ t)) (t + 1)
        ((-g + accum inc t f.parent) +ᵥ f.est) =
      ((f.obs.filter fun q => decide (t < q.1)).map fun q =>
        q.2.ll (accum (inc.set t g) q.1 f.parent +ᵥ f.est) -
          q.2.ll (accum inc q.1 f.parent +ᵥ f.est)).sum := by
  rw [obsLR, obsLRgo_eq, dropWhile_eq_filter_of_sorted _ _ hsort]
  apply congrArg List.sum
  apply List.map_congr_left
  intro q hq
  have hqt : t < q.1 := by
    have := (List.mem_filter.mp hq).2
    simpa using this
  have hqp : ¬ q.1 = f.parent := by omega
  have hnew : accum inc q.1 (t + 1) +ᵥ ((-g + accum inc t f.parent) +ᵥ f.est) =
      accum (inc.set t g) q.1 f.parent +ᵥ f.est := by
    rw [← add_vadd, accum_set_cross_down inc t q.1 f.parent g ht hpar hqt]
  have hold : accum inc q.1 (t + 1) +ᵥ (accum inc (t + 1) f.parent +ᵥ f.est) =
      accum inc q.1 f.parent +ᵥ f.est := vadd_accum inc q.1 (t + 1) f.parent f.est
  rw [if_neg hqp, hnew, hold]

theorem featureRecompute_set_far {G F : Type} [AddGroup G] [AddAction G F]
    (inc : List G) (f : FeatureEst F) (t : ℕ) (g : G)
    (ht : t < inc.length) (hpar : t < f.parent) :
    featureRecompute (inc.set t g) f - featureRecompute inc f =
      ((f.obs.filter fun q => decide (q.1 ≤ t)).map fun q =>
        q.2.ll (accum (inc.set t g) q.1 f.parent +ᵥ f.est) -
          q.2.ll (accum inc q.1 f.parent +ᵥ f.est)).sum := by
  rw [featureRecompute, featureRecompute, ← sum_map_sub, sum_map_filter_eq]
  apply congrArg List.sum
  apply List.map_congr_left
  intro q _
  by_cases hqt : q.1 ≤ t
  · have hqp : ¬ q.1 = f.parent := by omega
    simp [hqp, hqt]
  · by_cases hqp : q.1 = f.parent
    · have hpt : ¬ f.parent ≤ t := by omega
      simp [hqp, hqt, hpt]
    · have hhigh : accum (inc.set t g) q.1 f.parent = accum inc q.1 f.parent :=
        accum_set_high inc t q.1 f.parent g ht (by omega) hpar
      simp [hqp, hqt, hhigh]

theorem featureRecompute_set_near {G F : Type} [AddGroup G] [AddAction G F]
    (inc : List G) (f : FeatureEst F) (t : ℕ) (g : G)
    (ht : t < inc.length) (hpar : f.parent ≤ t) :
    featureRecompute (inc.set t g) f - featureRecompute inc f =
      ((f.obs.filter fun q => decide (t < q.1)).map fun q =>
        q.2.ll (accum (inc.set t g) q.1 f.parent +ᵥ f.est) -
          q.2.ll (accum inc q.1 f.parent +ᵥ f.est)).sum := by
  rw [featureRecompute, featureRecompute, ← sum_map_sub, sum_map_filter_eq]
  apply congrArg List.sum
  apply List.map_congr_left
  intro q _
  by_cases hqt : t < q.1
  · have hqp : ¬ q.1 = f.parent := by omega
    simp [hqp, hqt]
  · by_cases hqp : q.1 = f.parent
    · have hpt : ¬ t < f.parent := by omega
      simp [hqp, hqt, hpt]
    · have hlow : accum (inc.set t g) q.1 f.parent = accum inc q.1 f.parent :=
        accum_set_low inc t q.1 f.parent g (by omega) hpar
      simp [hqp, hqt, hlow]

theorem featureDelta_state {G F : Type} [AddGroup G] [AddAction G F] (inc : List G)
    (f : FeatureEst F) (t : ℕ) (g : G) (ht : t < inc.length)
    (hsort : f.obs.Pairwise fun a b => a.1 < b.1) :
    (if t < f.parent then
        obsLR inc f (f.obs.takeWhile fun q => decide (q.1 ≤ t)) t
          ((g + accum inc (t + 1) f.parent) +ᵥ f.est)
      else
        obsLR inc f (f.obs.dropWhile fun q => decide (q.1 ≤ t)) (t + 1)
          ((-g + accum inc t f.parent) +ᵥ f.est)) =
      featureRecompute (inc.set t g) f - featureRecompute inc f := by
  by_cases hpar : t < f.parent
  · rw [if_pos hpar, stateEdgeTerm_far inc f t g ht hpar hsort,
      featureRecompute_set_far inc f t g ht hpar]
  · rw [if_neg hpar, stateEdgeTerm_near inc f t g ht (le_of_not_lt hpar) hsort,
      featureRecompute_set_near inc f t g ht (le_of_not_lt hpar)]

theorem edgeLRstate_eq_delta {G F : Type} [AddGroup G] [AddAction G F]
    (st : MState G F) (t : ℕ) (g : G) (ht : t < st.stateEst.length) (hwf : WF st) :
    edgeLRstate st t g =
      recomputeFeatures (st.stateEst.set t g) st.features -
        recomputeFeatures st.stateEst st.features := by
  rw [edgeLRstate, recomputeFeatures, recomputeFeatures, ← sum_map_sub]
  apply congrArg List.sum
  apply List.map_congr_left
  intro p hp
  exact featureDelta_state st.stateEst p.2 t g ht (hwf.2 p hp).1

theorem sum_map_add {α : Type} (l : List α) (f g : α → ℚ) :
    (l.map fun x => f x + g x).sum = (l.map f).sum + (l.map g).sum := by
  induction l with
  | nil => simp
  | cons a rest ih =>
    simp only [List.map_cons, List.sum_cons, ih]
    ring

theorem zipSum_set {G : Type} [AddGroup G] (cs : List (CtrlModel G)) (se : List G)
    (t : ℕ) (v : G) (hlen : cs.length = se.length) (ht : t < se.length) :
    ((cs.zip (se.set t v)).map fun p => p.1.ll p.2).sum =
      ((cs.zip se).map fun p => p.1.ll p.2).sum
        - (cs.getD t default).ll (se.getD t 0) + (cs.getD t default).ll v := by
  induction cs generalizing se t with
  | nil =>
    rw [List.length_nil] at hlen
    rw [← hlen] at ht
    simp at ht
  | cons c cs' ih =>
    cases se with
    | nil => simp at ht
    | cons e se' =>
      cases t with
      | zero => simp [List.zip_cons_cons]; ring
      | succ t' =>
        have hlen' : cs'.length = se'.length := by simpa using hlen
        have ht' : t' < se'.length := by simpa using ht
        simp only [List.set_cons_succ, List.zip_cons_cons, List.map_cons, List.sum_cons,
          List.getD_cons_succ, ih se' t' hlen' ht']
        ring

theorem recomputeFeatures_set {G F : Type} [AddGroup G] [AddAction G F] (inc : List G)
    (fs : List (ℕ × FeatureEst F)) (i : ℕ) (x : ℕ × FeatureEst F) (hi : i < fs.length) :
    recomputeFeatures inc (fs.set i x) =
      recomputeFeatures inc fs - featureRecompute inc fs[i].2 +
        featureRecompute inc x.2 := by
  induction fs generalizing i with
  | nil => simp at hi
  | cons p fs' ih =>
    cases i with
    | zero =>
      show recomputeFeatures inc (x :: fs') =
        recomputeFeatures inc (p :: fs') - featureRecompute inc p.2 +
          featureRecompute inc x.2
      simp only [recomputeFeatures, List.map_cons, List.sum_cons]
      ring
    | succ i' =>
      have hi' : i' < fs'.length := by simpa using hi
      simp only [List.set_cons_succ, recomputeFeatures, List.map_cons, List.sum_cons,
        List.getElem_cons_succ]
      have := ih i' hi'
      simp only [recomputeFeatures] at this
      rw [this]
      ring

theorem recomputeFeatures_append {G F : Type} [AddGroup G] [AddAction G F] (inc : List G)
    (fs : List (ℕ × FeatureEst F)) (x : ℕ × FeatureEst F) :
    recomputeFeatures inc (fs ++ [x]) =
      recomputeFeatures inc fs + featureRecompute inc x.2 := by
  simp [recomputeFeatures]

theorem prefixComp_append_of_le {G : Type} [AddGroup G] (inc : List G) (x : G) (s : ℕ)
    (h : s ≤ inc.length) : prefixComp (inc ++ [x]) s = prefixComp inc s := by
  rw [prefixComp, prefixComp, List.take_append_of_le_length h]

theorem accum_append_of_le {G : Type} [AddGroup G] (inc : List G) (x : G) (a b : ℕ)
    (ha : a ≤ inc.length) (hb : b ≤ inc.length) :
    accum (inc ++ [x]) a b = accum inc a b := by
  rw [accum, accum, prefixComp_append_of_le _ _ _ ha, prefixComp_append_of_le _ _ _ hb]

theorem WFfeat_parent_le {F : Type} (T : ℕ) (f : FeatureEst F) (h : WFfeat T f) :
    f.parent ≤ T := by
  obtain ⟨_, hb, hhead⟩ := h
  cases hobs : f.obs with
  | nil => rw [hobs] at hhead; simp at hhead
  | cons q0 rest =>
    rw [hobs] at hhead
    simp only [List.head?_cons, Option.map_some] at hhead
    have hq0 : q0.1 = f.parent := by simpa using hhead
    have := hb q0 (by rw [hobs]; exact List.mem_cons_self q0 rest)
    omega

theorem featureRecompute_append_inc {G F : Type} [AddGroup G] [AddAction G F]
    (inc : List G) (x : G) (f : FeatureEst F)
    (hb : ∀ q ∈ f.obs, q.1 ≤ inc.length) (hp : f.parent ≤ inc.length) :
    featureRecompute (inc ++ [x]) f = featureRecompute inc f := by
  rw [featureRecompute, featureRecompute]
  apply congrArg List.sum
  apply List.map_congr_left
  intro q hq
  by_cases hqp : q.1 = f.parent
  · simp [hqp]
  · rw [if_neg hqp, if_neg hqp, accum_append_of_le _ _ _ _ (hb q hq) hp]

theorem findIdx?_some_spec {α : Type} (p : α → Bool) (l : List α) (i : ℕ)
    (h : l.findIdx? p = some i) :
    ∃ hi : i < l.length, p l[i] = true := by
  obtain ⟨hi, hp, _⟩ := List.findIdx?_eq_some_iff_getElem.mp h
  exact ⟨hi, hp⟩

theorem featureDelta_feature {G F : Type} [AddGroup G] [AddAction G F] (inc : List G)
    (f : FeatureEst F) (v : F)
    (hsort : f.obs.Pairwise fun a b => a.1 < b.1)
    (hhead : f.obs.head?.map Prod.fst = some f.parent) :
    featureRecompute inc { f with est := v } =
      featureRecompute inc f + obsLR inc f f.obs f.parent v +
        ((treeObs f).ll v - (treeObs f).ll f.est) := by
  cases hobs : f.obs with
  | nil => rw [hobs] at hhead; simp at hhead
  | cons q0 rest =>
    have hq0 : q0.1 = f.parent := by
      rw [hobs] at hhead
      simpa using hhead
    have htree : treeObs f = q0.2 := by
      rw [treeObs, hobs]
      simp [List.find?_cons, hq0]
    have hrest : ∀ q ∈ rest, ¬ q.1 = f.parent := by
      rw [hobs] at hsort
      intro q hq
      have := (List.pairwise_cons.mp hsort).1 q hq
      omega
    rw [obsLR, obsLRgo_eq, accum_self, zero_vadd, featureRecompute, featureRecompute]
    simp only [hobs, List.map_cons, List.sum_cons, hq0, if_pos rfl, htree]
    have hsum :
        (rest.map fun q =>
          if q.1 = f.parent then q.2.ll v
          else q.2.ll (accum inc q.1 f.parent +ᵥ v)).sum =
        (rest.map fun q =>
          if q.1 = f.parent then q.2.ll f.est
          else q.2.ll (accum inc q.1 f.parent +ᵥ f.est)).sum +
        (rest.map fun q =>
          if q.1 = f.parent then 0
          else q.2.ll (accum inc q.1 f.parent +ᵥ v) -
            q.2.ll (accum inc q.1 f.parent +ᵥ f.est)).sum := by
      rw [← sum_map_add]
      apply congrArg List.sum
      apply List.map_congr_left
      intro q hq
      rw [if_neg (hrest q hq), if_neg (hrest q hq), if_neg (hrest q hq)]
      ring
    rw [hsum]
    simp only [if_true]
    ring

theorem WFfeat_parent_mem {F : Type} (T : ℕ) (f : FeatureEst F) (h : WFfeat T f) :
    ∃ mq ∈ f.obs, mq.1 = f.parent := by
  obtain ⟨_, _, hhead⟩ := h
  cases hobs : f.obs with
  | nil => rw [hobs] at hhead; simp at hhead
  | cons q0 rest =>
    rw [hobs] at hhead
    refine ⟨q0, List.mem_cons_self q0 rest, ?_⟩
    simpa using hhead

theorem WFfeat_obs_ne_nil {F : Type} (T : ℕ) (f : FeatureEst F) (h : WFfeat T f) :
    f.obs ≠ [] := by
  obtain ⟨_, _, hhead⟩ := h
  intro hobs
  rw [hobs] at hhead
  simp at hhead

theorem addStateEdge_inv {G F : Type} [AddGroup G] [AddAction G F] (st : MState G F)
    (c : CtrlModel G) (hwf : WF st) (hll : st.ll = recompute st) :
    WF (addStateEdge st c) ∧ (addStateEdge st c).ll = recompute (addStateEdge st c) := by
  obtain ⟨hlen, hfeat⟩ := hwf
  have hrf : recomputeFeatures (st.stateEst ++ [c.mean]) st.features =
      recomputeFeatures st.stateEst st.features := by
    rw [recomputeFeatures, recomputeFeatures]
    apply congrArg List.sum
    apply List.map_congr_left
    intro p hp
    exact featureRecompute_append_inc _ _ _ (hfeat p hp).2.1
      (WFfeat_parent_le _ _ (hfeat p hp))
  constructor
  · refine ⟨by simp [addStateEdge, hlen], ?_⟩
    intro p hp
    obtain ⟨hs, hb, hh⟩ := hfeat p (by simpa [addStateEdge] using hp)
    refine ⟨hs, ?_, hh⟩
    intro q hq
    have := hb q hq
    simp only [addStateEdge, List.length_append, List.length_singleton]
    omega
  · have hzip : (st.controls ++ [c]).zip (st.stateEst ++ [c.mean]) =
        st.controls.zip st.stateEst ++ [(c, c.mean)] := List.zip_append hlen
    simp only [addStateEdge, recompute, controlsSum]
    rw [hzip]
    simp only [List.map_append, List.sum_append, List.map_cons, List.sum_cons,
      List.map_nil, List.sum_nil]
    rw [hrf, hll, recompute, controlsSum]
    ring

theorem updStateEdge_inv {G F : Type} [AddGroup G] [AddAction G F] (st : MState G F)
    (t : ℕ) (g : G) (b : Bool) (ht : t < st.stateEst.length) (hwf : WF st)
    (hll : st.ll = recompute st) :
    WF (updStateEdge st t g b) ∧
      (updStateEdge st t g b).ll = recompute (updStateEdge st t g b) := by
  cases b with
  | false => exact ⟨hwf, by simpa [updStateEdge] using hll⟩
  | true =>
    obtain ⟨hlen, hfeat⟩ := hwf
    have hdelta := edgeLRstate_eq_delta st t g ht ⟨hlen, hfeat⟩
    have hRF : recomputeFeatures (st.stateEst.set t g) st.features =
        recomputeFeatures st.stateEst st.features + edgeLRstate st t g := by
      linarith [hdelta]
    have hzs := zipSum_set st.controls st.stateEst t g hlen ht
    constructor
    · refine ⟨by simp [updStateEdge, hlen], ?_⟩
      intro p hp
      obtain ⟨hs, hb, hh⟩ := hfeat p (by simpa [updStateEdge] using hp)
      refine ⟨hs, ?_, hh⟩
      intro q hq
      have := hb q hq
      simp only [updStateEdge, if_true, List.length_set]
      exact this
    · simp only [updStateEdge, if_true, recompute, controlsSum]
      rw [hzs, hRF, hll, recompute, controlsSum]
      ring

theorem updFeatureEdge_inv {G F : Type} [AddGroup G] [AddAction G F] (st : MState G F)
    (i : ℕ) (v : F) (b : Bool) (hi : i < st.features.length) (hwf : WF st)
    (hll : st.ll = recompute st) :
    WF (updFeatureEdge st i v b) ∧
      (updFeatureEdge st i v b).ll = recompute (updFeatureEdge st i v b) := by
  cases b with
  | false => exact ⟨hwf, by simpa [updFeatureEdge] using hll⟩
  | true =>
    obtain ⟨hlen, hfeat⟩ := hwf
    have hget : st.features[i]? = some st.features[i] := List.getElem?_eq_getElem hi
    have hpmem : st.features[i] ∈ st.features := List.getElem_mem hi
    have hfp := hfeat _ hpmem
    have hrs := recomputeFeatures_set st.stateEst st.features i
      (st.features[i].1, { st.features[i].2 with est := v }) hi
    have hfd := featureDelta_feature st.stateEst st.features[i].2 v
      hfp.1 hfp.2.2
    constructor
    · refine ⟨by simpa [updFeatureEdge, hget] using hlen, ?_⟩
      intro p' hp'
      have hp'' : p' ∈ st.features.set i
          (st.features[i].1, { st.features[i].2 with est := v }) := by
        simpa [updFeatureEdge, hget] using hp'
      rcases List.mem_or_eq_of_mem_set hp'' with h | h
      · have := hfeat p' h
        simpa [updFeatureEdge, hget] using this
      · rw [h]
        obtain ⟨hs, hb, hh⟩ := hfp
        exact ⟨hs, by simpa [updFeatureEdge, hget] using hb, hh⟩
    · simp only [updFeatureEdge, hget, if_true, recompute, controlsSum]
      rw [hrs]
      dsimp only
      rw [hfd, hll, recompute, controlsSum, edgeLRfeature]
      ring

theorem processObs_inv {G F : Type} [AddGroup G] [AddAction G F] (st : MState G F)
    (fid : ℕ) (m : ObsModel F) (hwf : WF st) (hll : st.ll = recompute st)
    (hfid : ∀ p ∈ st.features, p.1 = fid → ∀ q ∈ p.2.obs, q.1 < st.stateEst.length) :
    WF (processObs st fid m) ∧
    (processObs st fid m).ll = recompute (processObs st fid m) ∧
    (processObs st fid m).stateEst = st.stateEst ∧
    (processObs st fid m).controls = st.controls ∧
    (∀ p ∈ (processObs st fid m).features, p.1 ≠ fid → p ∈ st.features) := by
  obtain ⟨hlen, hfeat⟩ := hwf
  cases hidx : st.features.findIdx? (fun p => decide (p.1 = fid)) with
  | none =>
    simp only [processObs, hidx]
    refine ⟨⟨by simpa using hlen, ?_⟩, ?_, trivial, trivial, ?_⟩
    · intro p hp
      rcases List.mem_append.mp hp with hp | hp
      · exact hfeat p hp
      · have hpeq : p = (fid, ⟨[(st.stateEst.length, m)], st.stateEst.length, m.mean⟩) := by
          simpa using hp
        rw [hpeq]
        refine ⟨List.pairwise_singleton _ _, ?_, by simp⟩
        intro q hq
        simp only [List.mem_singleton] at hq
        simp [hq]
    · simp only [recompute, controlsSum]
      rw [recomputeFeatures_append]
      have hnew : featureRecompute st.stateEst
          (⟨[(st.stateEst.length, m)], st.stateEst.length, m.mean⟩ : FeatureEst F) =
          m.ll m.mean := by
        simp [featureRecompute]
      rw [hnew, hll, recompute, controlsSum]
      ring
    · intro p hp hne
      rcases List.mem_append.mp hp with h | h
      · exact h
      · exfalso
        apply hne
        have : p = (fid, ⟨[(st.stateEst.length, m)], st.stateEst.length, m.mean⟩) := by
          simpa using h
        rw [this]
  | some i =>
    obtain ⟨hi, hpi⟩ := findIdx?_some_spec _ _ _ hidx
    have hget : st.features[i]? = some st.features[i] := List.getElem?_eq_getElem hi
    have hpfid : st.features[i].1 = fid := by simpa using hpi
    have hpmem : st.features[i] ∈ st.features := List.getElem_mem hi
    have hfp := hfeat _ hpmem
    have hqlt := hfid _ hpmem hpfid
    have hparent_lt : st.features[i].2.parent < st.stateEst.length := by
      obtain ⟨mq, hmq, hmqp⟩ := WFfeat_parent_mem _ _ hfp
      have := hqlt mq hmq
      omega
    have hne_nil := WFfeat_obs_ne_nil _ _ hfp
    simp only [processObs, hidx, hget]
    refine ⟨⟨by simpa using hlen, ?_⟩, ?_, trivial, trivial, ?_⟩
    · intro p' hp'
      rcases List.mem_or_eq_of_mem_set hp' with h | h
      · exact hfeat p' h
      · rw [h]
        obtain ⟨hs, hb, hh⟩ := hfp
        refine ⟨?_, ?_, ?_⟩
        · rw [List.pairwise_append]
          refine ⟨hs, List.pairwise_singleton _ _, ?_⟩
          intro a ha b hb'
          simp only [List.mem_singleton] at hb'
          rw [hb']
          exact hqlt a ha
        · intro q hq
          rcases List.mem_append.mp hq with h' | h'
          · exact hb q h'
          · simp only [List.mem_singleton] at h'
            simp [h']
        · rw [List.head?_append_of_ne_nil _ hne_nil]
          exact hh
    · simp only [recompute, controlsSum]
      rw [recomputeFeatures_set st.stateEst st.features i _ hi]
      have happ : featureRecompute st.stateEst
          { st.features[i].2 with
            obs := st.features[i].2.obs ++ [(st.stateEst.length, m)] } =
          featureRecompute st.stateEst st.features[i].2 +
            m.ll (accum st.stateEst st.stateEst.length
              st.features[i].2.parent +ᵥ st.features[i].2.est) := by
        simp only [featureRecompute, List.map_append, List.sum_append, List.map_cons,
          List.sum_cons, List.map_nil, List.sum_nil]
        rw [if_neg (by omega)]
        ring
      rw [happ, hll, recompute, controlsSum]
      ring
    · intro p' hp' hne
      rcases List.mem_or_eq_of_mem_set hp' with h | h
      · exact h
      · exfalso
        apply hne
        rw [h]
        exact hpfid

theorem processObsFold_inv {G F : Type} [AddGroup G] [AddAction G F]
    (obs : List (ℕ × ObsModel F)) :
    ∀ st : MState G F, WF st → st.ll = recompute st →
    (obs.map Prod.fst).Nodup →
    (∀ x ∈ obs, ∀ p ∈ st.features, p.1 = x.1 → ∀ q ∈ p.2.obs, q.1 < st.stateEst.length) →
    WF (obs.foldl (fun s x => processObs s x.1 x.2) st) ∧
    (obs.foldl (fun s x => processObs s x.1 x.2) st).ll =
      recompute (obs.foldl (fun s x => processObs s x.1 x.2) st) ∧
    (obs.foldl (fun s x => processObs s x.1 x.2) st).stateEst = st.stateEst ∧
    (obs.foldl (fun s x => processObs s x.1 x.2) st).controls = st.controls := by
  induction obs with
  | nil => intro st hwf hll _ _; exact ⟨hwf, hll, rfl, rfl⟩
  | cons x rest ih =>
    intro st hwf hll hnodup hcond
    obtain ⟨hwf1, hll1, hse1, hc1, hother⟩ :=
      processObs_inv st x.1 x.2 hwf hll (hcond x (List.mem_cons_self x rest))
    have hnodup' : (rest.map Prod.fst).Nodup :=
      (List.nodup_cons.mp (by simpa using hnodup)).2
    have hxnot : x.1 ∉ rest.map Prod.fst :=
      (List.nodup_cons.mp (by simpa using hnodup)).1
    have hcond' : ∀ y ∈ rest, ∀ p ∈ (processObs st x.1 x.2).features, p.1 = y.1 →
        ∀ q ∈ p.2.obs, q.1 < (processObs st x.1 x.2).stateEst.length := by
      intro y hy p hp hpy
      have hyne : y.1 ≠ x.1 := by
        intro he
        exact hxnot (he ▸ List.mem_map_of_mem Prod.fst hy)
      have hpne : p.1 ≠ x.1 := by rw [hpy]; exact hyne
      have hpmem := hother p hp hpne
      rw [hse1]
      exact hcond y (List.mem_cons_of_mem _ hy) p hpmem hpy
    obtain ⟨ha, hb, hc, hd⟩ := ih (processObs st x.1 x.2) hwf1 hll1 hnodup' hcond'
    exact ⟨ha, hb, by rw [List.foldl_cons]; rw [hc, hse1],
      by rw [List.foldl_cons]; rw [hd, hc1]⟩

theorem applyOp_inv {G F : Type} [AddGroup G] [AddAction G F] (st : MState G F)
    (op : MOp G F) (hok : okOp st op) (hwf : WF st) (hll : st.ll = recompute st) :
    WF (applyOp st op) ∧ (applyOp st op).ll = recompute (applyOp st op) := by
  cases op with
  | step c obs =>
    obtain ⟨hnodup, hcond⟩ := hok
    have hbase : WF (stepBase st c) ∧ (stepBase st c).ll = recompute (stepBase st c) := by
      cases c with
      | none => exact ⟨hwf, hll⟩
      | some cc => exact addStateEdge_inv st cc hwf hll
    obtain ⟨h1, h2, _, _⟩ := processObsFold_inv obs (stepBase st c) hbase.1 hbase.2
      hnodup hcond
    exact ⟨h1, h2⟩
  | updState t g b => exact updStateEdge_inv st t g b hok hwf hll
  | updFeat i v b => exact updFeatureEdge_inv st i v b hok hwf hll

theorem runMCMC_inv {G F : Type} [AddGroup G] [AddAction G F] (ops : List (MOp G F)) :
    ∀ st : MState G F, WF st → st.ll = recompute st → okRun st ops →
    WF (runMCMC st ops) ∧ (runMCMC st ops).ll = recompute (runMCMC st ops) := by
  induction ops with
  | nil => intro st hwf hll _; exact ⟨hwf, hll⟩
  | cons op rest ih =>
    intro st hwf hll hok
    obtain ⟨hop, hrest⟩ := hok
    obtain ⟨hwf1, hll1⟩ := applyOp_inv st op hop hwf hll
    exact ih (applyOp st op) hwf1 hll1 hrest

theorem flatMapInsert_of_not_mem (l : List (ℕ × O)) (t : ℕ) (x : O)
    (h : l.lookup t = none) :
    (flatMapInsert l t x).2 = true ∧ (flatMapInsert l t x).1.lookup t = some x := by
  induction l with
  | nil => simp [flatMapInsert, List.lookup]
  | cons p rest ih =>
    obtain ⟨s, y⟩ := p
    rw [List.lookup_cons] at h
    by_cases hts : t = s
    · subst hts
      simp at h
    · have hbeq : (t == s) = false := by simp [hts]
      rw [hbeq] at h
      simp only [Bool.false_eq_true, if_false] at h
      rcases lt_trichotomy t s with h1 | h1 | h1
      · simp [flatMapInsert, h1, List.lookup_cons, hbeq]
      · exact absurd h1 hts
      · have h2 : ¬ t < s := not_lt_of_gt h1
        have := ih h
        simp only [flatMapInsert, h2, if_false, h1, if_true]
        exact ⟨this.1, by simp [List.lookup_cons, hbeq, this.2]⟩

theorem storeTimeline_lookup_self (fs : List (ℕ × List (ℕ × O))) (fid : ℕ)
    (tl : List (ℕ × O)) : (storeTimeline fs fid tl).lookup fid = some tl := by
  induction fs with
  | nil => simp [storeTimeline, List.lookup]
  | cons p rest ih =>
    obtain ⟨k, v⟩ := p
    by_cases hk : k = fid
    · simp [storeTimeline, hk, List.lookup]
    · have : (fid == k) = false := by simp [Ne.symm hk]
      simp [storeTimeline, hk, List.lookup, this, ih]

theorem Cowtree.insertGo_insertGo [LinearOrder K] (m : Cowtree K V) (k : K) (v₁ v₂ : V) :
    ((m.insertGo k v₁).1.insertGo k v₂).1 = (m.insertGo k v₂).1 := by
  induction m with
  | leaf => simp [insertGo, lt_irrefl]
  | node l k0 v0 r ihl ihr =>
    by_cases h1 : k < k0
    · simp [insertGo, h1, ihl]
    · by_cases h2 : k0 < k
      · simp [insertGo, h1, h2, ihr]
      · simp [insertGo, h1, h2, lt_irrefl]

theorem particle_log_weight_eq_sum {S O : Type} (pred : S → ℕ → RDist O) (x : S)
    (obsList : List (SeenObs O)) :
    particle_log_weight pred x obsList =
      (obsList.map fun o => (pred x o.id).ll o.mean).sum := by
  have key : ∀ (l : List (SeenObs O)) (a : ℝ),
      l.foldl (fun w o => w + (pred x o.id).ll o.mean) a =
        a + (l.map fun o => (pred x o.id).ll o.mean).sum := by
    intro l
    induction l with
    | nil => intro a; simp
    | cons o rest ih =>
      intro a
      simp only [List.foldl_cons, List.map_cons, List.sum_cons, ih]
      ring
  simpa using key obsList 0

/-- C9: for every cowmap `m`, key `k` and values `v₁`, `v₂`, inserting
`(k, v₁)` and then `(k, v₂)` yields a map observationally equal (same `get`,
`count`, `empty` and `for_each` traversal) to inserting `(k, v₂)` once into
`m`: the second insert of an existing key overwrites the stored value in
place. -/
theorem cowmap_insert_overwrite {K V : Type} [LinearOrder K]
    (m : Cowtree K V) (k : K) (v₁ v₂ : V) :
    (∀ k', ((m.insert k v₁).insert k v₂).get? k' = (m.insert k v₂).get? k') ∧
    (∀ k', ((m.insert k v₁).insert k v₂).count k' = (m.insert k v₂).count k') ∧
    ((m.insert k v₁).insert k v₂).isEmptyTree = (m.insert k v₂).isEmptyTree ∧
    ((m.insert k v₁).insert k v₂).inorder = (m.insert k v₂).inorder := by
  have h : (m.insert k v₁).insert k v₂ = m.insert k v₂ := by
    simpa [Cowtree.insert] using Cowtree.insertGo_insertGo m k v₁ v₂
  rw [h]
  exact ⟨fun _ => rfl, fun _ => rfl, rfl, rfl⟩

/-- C2: evaluation of both constructors at a configuration that stores seed 7
for both estimators, with constructor-supplied seed 42.  `mcmc_slam` uses the
configured seed verbatim, but `fastslam` ignores the stored "fastslam-seed"
and seeds from the constructor argument, leaving the configuration unchanged,
contradicting the claimed policy for the fastslam-seed option. -/
theorem fastslam_ignores_configured_seed :
    mcmc_slam_ctor_seed ⟨some 7, some 7⟩ 42 = (7, ⟨some 7, some 7⟩) ∧
    fastslam_ctor_seed ⟨some 7, some 7⟩ 42 = (42, ⟨some 7, some 7⟩) ∧
    (fastslam_ctor_seed ⟨some 7, some 7⟩ 42).1 ≠ 7 := by
  refine ⟨rfl, rfl, ?_⟩
  decide

/-- C8 counterexample: two `add_observation` calls for feature 0 at the same
timestep (no intervening control).  The second call's pair `(0, 20)` is NOT
inserted into the timeline — the flat_map keeps the first entry and no event
is broadcast — so the claim "for every call the pair (current_timestep, z) is
inserted" is false at this input. -/
theorem add_observation_duplicate_timestep_drops :
    ¬ ((((((⟨[], []⟩ : SlamData Unit ℕ).add_observation 0 10).1.add_observation 0 20).1.feature_data 0).lookup 0 = some 20) ∧
       ((((⟨[], []⟩ : SlamData Unit ℕ).add_observation 0 10).1.add_observation 0 20).2).isSome = true) := by
  decide

/-- C8 (amended): provided feature `fid` has no observation recorded at the
current timestep, `add_observation` inserts `(current_timestep, obs)` into the
feature's timeline and broadcasts to every listener an event whose
`new_feature` flag is true iff this call made the first observation of `fid`
ever recorded in the log; when an observation at `(fid, current_timestep)`
already exists, the log is unchanged and no event is broadcast (the latter
shown by the counterexample). -/
theorem add_observation_inserts_and_flags {C O : Type} (d : SlamData C O)
    (fid : ℕ) (obs : O)
    (hfresh : (d.feature_data fid).lookup d.current_timestep = none)
    (hne : ∀ tl ∈ d.features.lookup fid, tl ≠ []) :
    ((d.add_observation fid obs).1.feature_data fid).lookup d.current_timestep = some obs ∧
    (d.add_observation fid obs).2 =
      some (d.current_timestep, fid, obs, (d.features.lookup fid).isNone) ∧
    ((d.features.lookup fid).isNone = true ↔ d.feature_data fid = []) := by
  have hins := flatMapInsert_of_not_mem ((d.features.lookup fid).getD [])
    d.current_timestep obs hfresh
  refine ⟨?_, ?_, ?_⟩
  · simp only [SlamData.add_observation, hins.1, if_true, SlamData.feature_data]
    rw [storeTimeline_lookup_self]
    exact hins.2
  · simp [SlamData.add_observation, hins.1]
  · cases h : d.features.lookup fid with
    | none => simp [SlamData.feature_data, h]
    | some tl =>
      have : tl ≠ [] := hne tl h
      simp [SlamData.feature_data, h, this]

/-- C8 witness: the amended statement instantiated at a log holding one
control and an earlier observation of feature 3 at timestep 0. -/
theorem add_observation_inserts_and_flags_witness :
    (((⟨[()], [(3, [(0, 5)])]⟩ : SlamData Unit ℕ).add_observation 3 7).1.feature_data 3).lookup 1 = some 7 ∧
    ((⟨[()], [(3, [(0, 5)])]⟩ : SlamData Unit ℕ).add_observation 3 7).2 = some (1, 3, 7, false) ∧
    ((([(3, [(0, 5)])] : List (ℕ × List (ℕ × ℕ))).lookup 3).isNone = true ↔
      (⟨[()], [(3, [(0, 5)])]⟩ : SlamData Unit ℕ).feature_data 3 = []) := by
  have h := add_observation_inserts_and_flags (⟨[()], [(3, [(0, 5)])]⟩ : SlamData Unit ℕ)
    3 7 (by decide) (by decide)
  exact ⟨h.1, h.2.1, h.2.2⟩

/-- C10: `features_end()` returns the same iterator as `features_begin()`
(both return `m_features.begin()`), so the range
`[features_begin(), features_end())` visits no features even when the log
contains observed features, while feature data remains reachable through
`find_feature`, `feature_data` and `feature_observation`. -/
theorem features_end_eq_features_begin {C O : Type} (d : SlamData C O) :
    d.features_end = d.features_begin ∧
    d.featuresRange = [] ∧
    (∀ fid tl, d.features.lookup fid = some tl →
      d.find_feature fid = some tl ∧
      d.feature_data fid = tl ∧
      ∀ t ob, tl.lookup t = some ob → d.feature_observation fid t = some ob) := by
  refine ⟨rfl, rfl, ?_⟩
  intro fid tl h
  refine ⟨h, by simp [SlamData.feature_data, h], ?_⟩
  intro t ob hob
  simp [SlamData.feature_observation, SlamData.feature_data, h, hob]

/-- C10 witness: a log with a nonempty feature map still yields an empty
begin-to-end feature range, while the accessors reach the stored data. -/
theorem features_end_eq_features_begin_witness :
    (⟨[()], [(3, [(0, 5)])]⟩ : SlamData Unit ℕ).featuresRange = [] ∧
    (⟨[()], [(3, [(0, 5)])]⟩ : SlamData Unit ℕ).feature_observation 3 0 = some 5 := by
  have h := features_end_eq_features_begin (⟨[()], [(3, [(0, 5)])]⟩ : SlamData Unit ℕ)
  exact ⟨h.2.1, ((h.2.2 3 [(0, 5)] rfl).2.2) 0 5 rfl⟩

/-- C1: evaluation of the state-edge selection of `mcmc_slam::update` at state
weights `[0, 1]` (two state edges, the first with weight zero).  Whatever
uniform draws the random source produces, the selection loop returns timestep
0, because `timestep_type timestep;` default-constructs to 0 and the guard
`timestep >= current_timestep()` is already false on entry — the Fenwick
`binary_search` is never consulted.  The claimed weight-proportional selection
would return edge 1 for every admissible draw (its weight carries the whole
prefix mass), as the second conjunct shows. -/
theorem mcmc_update_state_selection_ignores_weights :
    (∀ draws : List ℚ, stateEdgeSelect 2 [0, 1] 1 draws 0 = 0) ∧
    (∀ d : ℚ, 0 ≤ d → d < 1 → binary_search [0, 1] (1 * d) = 1) := by
  constructor
  · intro draws
    cases draws with
    | nil => rfl
    | cons d ds => simp [stateEdgeSelect]
  · intro d h0 h1
    have hp1 : prefixSumQ [0, 1] (0 + 1) = 0 := by simp [prefixSumQ]
    have hp2 : prefixSumQ [0, 1] (1 + 1) = 1 := by simp [prefixSumQ]
    have hc0 : ¬ ((1 : ℚ) * d < prefixSumQ [0, 1] (0 + 1)) := by
      rw [hp1]; simpa using h0
    have hc1 : (1 : ℚ) * d < prefixSumQ [0, 1] (1 + 1) := by
      rw [hp2]; simpa using h1
    have hr : List.range ([(0 : ℚ), 1].length) = [0, 1] := rfl
    simp only [binary_search, hr, List.find?]
    rw [decide_eq_false hc0, decide_eq_true hc1]
    rfl

/-- C1 witness: the selection at the concrete draw 1/2 proposes edge 0 even
though `binary_search` on the same draw yields edge 1. -/
theorem mcmc_update_state_selection_ignores_weights_witness :
    stateEdgeSelect 2 [0, 1] 1 [1/2] 0 = 0 ∧ binary_search [0, 1] (1 * (1/2)) = 1 := by
  exact ⟨mcmc_update_state_selection_ignores_weights.1 [1/2],
    mcmc_update_state_selection_ignores_weights.2 (1/2) (by norm_num) (by norm_num)⟩

/-- C4: with `W > 0` and the old edge weight bounded by the weight total, the
set of uniform draws `u ∈ [0,1)` accepted by `mcmc_slam::update` is the
interval `[0, min 1 (exp (log_ratio + new_log_weight - old_log_weight) /
(1 + (new_weight - old_weight)/W)))`, so the proposal is accepted with
probability `min (1, exp(log_ratio + Δlog_weight) / normaliser)`, and
equivalently a draw `u` is accepted iff
`(1 + (new_weight - old_weight)/W) * u < exp (log_ratio + Δlog_weight)`. -/
theorem mcmc_acceptance_probability (logRatio newLW oldLW W : ℝ)
    (hW : 0 < W) (hold : Real.exp oldLW ≤ W) :
    {u : ℝ | u ∈ Set.Ico (0 : ℝ) 1 ∧ mcmcAcceptance Real.exp logRatio newLW oldLW W u} =
      Set.Ico 0 (min 1 (Real.exp (logRatio + newLW - oldLW) /
        (1 + (Real.exp newLW - Real.exp oldLW) / W))) := by
  set n : ℝ := 1 + (Real.exp newLW - Real.exp oldLW) / W with hn_def
  have hn : 0 < n := by
    have hnew : 0 < Real.exp newLW := Real.exp_pos newLW
    have h1 : -W < Real.exp newLW - Real.exp oldLW := by linarith
    have h2 : (-W) / W < (Real.exp newLW - Real.exp oldLW) / W :=
      div_lt_div_of_pos_right h1 hW
    have h3 : (-W) / W = -1 := by field_simp
    rw [h3] at h2
    simp only [hn_def]
    linarith
  ext u
  simp only [Set.mem_setOf_eq, Set.mem_Ico, mcmcAcceptance, lt_min_iff]
  constructor
  · rintro ⟨⟨hu0, hu1⟩, hacc⟩
    refine ⟨hu0, hu1, ?_⟩
    rw [lt_div_iff₀ hn, mul_comm]
    exact hacc
  · rintro ⟨hu0, hu1, hu2⟩
    refine ⟨⟨hu0, hu1⟩, ?_⟩
    rw [lt_div_iff₀ hn, mul_comm] at hu2
    exact hu2

/-- C4 witness: the acceptance set at `log_ratio = 0`, equal old and new log
weights and total weight 1. -/
theorem mcmc_acceptance_probability_witness :
    {u : ℝ | u ∈ Set.Ico (0 : ℝ) 1 ∧ mcmcAcceptance Real.exp 0 0 0 1 u} =
      Set.Ico 0 (min 1 (Real.exp (0 + 0 - 0) / (1 + (Real.exp 0 - Real.exp 0) / 1))) :=
  mcmc_acceptance_probability 0 0 0 1 (by norm_num)
    (by rw [Real.exp_zero])

/-- C6: the weight multiplier returned by `fastslam::particle_state_update`
equals `exp (log p(z|x) + log p(x|prior) - log q(x|proposal))` at the newly
sampled state `x`, where the observation term is the product, over this
step's already-seen observations, of the exponentiated predicted-observation
log-likelihood at the observation mean; and the particle's stored state is
the sampled `x`. -/
theorem particle_state_update_weight {S O : Type} (prior proposal : RDist S)
    (x : S) (pred : S → ℕ → RDist O) (obsList : List (SeenObs O)) :
    particle_state_update Real.exp prior proposal x pred obsList =
      (x, (obsList.map fun o => Real.exp ((pred x o.id).ll o.mean)).prod *
        Real.exp (prior.ll x) / Real.exp (proposal.ll x)) := by
  simp only [particle_state_update, particle_log_weight_eq_sum, Prod.mk.injEq, true_and]
  rw [sub_eq_add_neg, Real.exp_add, Real.exp_add, Real.exp_neg, Real.exp_list_sum]
  rw [List.map_map]
  rw [div_eq_mul_inv]
  rfl

/-- C7: the control edge appended by `g2o_slam::control` connects the
previous last pose vertex to the newly appended consecutive pose vertex,
carries the control mean as measurement, has information matrix
`(L * Lᵀ)⁻¹` for the Cholesky factor `L` of the control covariance (given
that the triangular solve produced `Linv` with `L * Linv = 1`), and its error
function evaluates to `subtract (observe (-v_t + v_{t+1}), measurement)`. -/
theorem g2o_control_edge_spec {n : ℕ} {G : Type} [AddGroup G]
    (st : G2OState n G) (initialEstimate : G) (c : G2OControlModel n G)
    (Linv : Matrix (Fin n) (Fin n) ℝ)
    (hL : c.chol_cov * Linv = 1) (hne : st.stateVerts ≠ []) :
    (g2o_control st initialEstimate c Linv).controlEdges =
      st.controlEdges ++
        [mkEdgeControl (st.stateVerts.length - 1) st.stateVerts.length Linv c] ∧
    (mkEdgeControl (st.stateVerts.length - 1) st.stateVerts.length Linv c).v0 + 1 =
      (mkEdgeControl (st.stateVerts.length - 1) st.stateVerts.length Linv c).v1 ∧
    (mkEdgeControl (st.stateVerts.length - 1) st.stateVerts.length Linv c).measurement =
      c.mean ∧
    (mkEdgeControl (st.stateVerts.length - 1) st.stateVerts.length Linv c).information =
      (c.chol_cov * c.chol_cov.transpose)⁻¹ ∧
    ∀ p q : G,
      (mkEdgeControl (st.stateVerts.length - 1) st.stateVerts.length Linv c).error p q =
        c.subtract (c.observe (-p + q)) c.mean := by
  have hlen : 0 < st.stateVerts.length := List.length_pos.mpr hne
  refine ⟨rfl, ?_, rfl, ?_, fun p q => rfl⟩
  · simp only [mkEdgeControl]
    omega
  · have hinv : c.chol_cov⁻¹ = Linv := Matrix.inv_eq_right_inv hL
    simp only [mkEdgeControl]
    rw [Matrix.mul_inv_rev, ← Matrix.transpose_nonsing_inv, hinv]

/-- C7 witness: a one-dimensional control model with identity Cholesky factor
on a graph holding the single fixed origin vertex. -/
theorem g2o_control_edge_spec_witness :
    (g2o_control (⟨[0], []⟩ : G2OState 1 ℤ) 0
        ⟨fun _ => 0, 1, fun _ _ => 0, fun a _ => a⟩ 1).controlEdges =
      [mkEdgeControl 0 1 1 ⟨fun _ => 0, 1, fun _ _ => 0, fun a _ => a⟩] ∧
    (mkEdgeControl (0 : ℕ) 1 (1 : Matrix (Fin 1) (Fin 1) ℝ)
        (⟨fun _ => 0, 1, fun _ _ => 0, fun a _ => a⟩ : G2OControlModel 1 ℤ)).information =
      ((1 : Matrix (Fin 1) (Fin 1) ℝ) * (1 : Matrix (Fin 1) (Fin 1) ℝ).transpose)⁻¹ := by
  have h := g2o_control_edge_spec (⟨[0], []⟩ : G2OState 1 ℤ) 0
    (⟨fun _ => 0, 1, fun _ _ => 0, fun a _ => a⟩ : G2OControlModel 1 ℤ) 1
    (by rw [Matrix.mul_one]) (by simp)
  exact ⟨h.1, h.2.2.2.1⟩

/-- C3: after any admissible sequence of `mcmc_slam::timestep` and
`mcmc_slam::update` interactions (arbitrary proposals and accept decisions,
i.e. all outcomes of the random source), the internally tracked
`log_likelihood` equals the sum over every edge of the model — state edges,
feature (tree) edges and non-tree observations — of that edge's
distribution's log-likelihood at the edge's current estimate, recomputed in
full from `state_estimates` and `feature_estimates`. -/
theorem mcmc_log_likelihood_invariant {G F : Type} [AddGroup G] [AddAction G F]
    (ops : List (MOp G F)) (hok : okRun (MState.empty G F) ops) :
    (runMCMC (MState.empty G F) ops).ll = recompute (runMCMC (MState.empty G F) ops) := by
  have hwf : WF (MState.empty G F) := by
    refine ⟨rfl, ?_⟩
    intro p hp
    simp [MState.empty] at hp
  have hll : (MState.empty G F).ll = recompute (MState.empty G F) := by
    simp [MState.empty, recompute, controlsSum, recomputeFeatures]
  exact (runMCMC_inv ops (MState.empty G F) hwf hll hok).2

/-- C3 witness: the invariant evaluated on a concrete run with two timesteps,
three observations and three MCMC updates. -/
theorem mcmc_log_likelihood_invariant_witness :
    (runMCMC (MState.empty ℤ ℤ) sampleOps).ll =
      recompute (runMCMC (MState.empty ℤ ℤ) sampleOps) :=
  mcmc_log_likelihood_invariant sampleOps (by decide)

/-- C5: the log-posterior change computed by `edge_log_likelihood_ratio` for a
relabeling of the state edge at timestep `t` re-scores, for every observed
feature, exactly its non-tree observations at timesteps before `t+1` when the
feature's parent timestep exceeds `t`, and exactly those after `t` when the
parent timestep is at most `t`; the tree (parent-timestep) observation is
never re-scored, and each observation is scored at the composition of the
state increments along the path between the observation timestep and the
parent timestep (with the proposed label substituted at `t`). -/
theorem mcmc_state_edge_rescoring {G F : Type} [AddGroup G] [AddAction G F]
    (st : MState G F) (t : ℕ) (g : G) (hwf : WF st) (ht : t < st.stateEst.length) :
    edgeLRstate st t g =
      (st.features.map fun p =>
        ((p.2.obs.filter fun q =>
            decide (q.1 ≠ p.2.parent) &&
              (if t < p.2.parent then decide (q.1 < t + 1) else decide (t < q.1))).map
          fun q =>
            q.2.ll (accum (st.stateEst.set t g) q.1 p.2.parent +ᵥ p.2.est) -
              q.2.ll (accum st.stateEst q.1 p.2.parent +ᵥ p.2.est)).sum).sum := by
  rw [edgeLRstate]
  apply congrArg List.sum
  apply List.map_congr_left
  intro p hp
  have hfp := hwf.2 p hp
  by_cases hpar : t < p.2.parent
  · rw [if_pos hpar, stateEdgeTerm_far st.stateEst p.2 t g ht hpar hfp.1]
    simp only [if_pos hpar]
    have hfilter : (p.2.obs.filter fun q => decide (q.1 ≤ t)) =
        p.2.obs.filter fun q => decide (q.1 ≠ p.2.parent) && decide (q.1 < t + 1) := by
      apply List.filter_congr
      intro q _
      by_cases h : q.1 ≤ t
      · have h1 : q.1 ≠ p.2.parent := by omega
        have h2 : q.1 < t + 1 := by omega
        simp [h, h1, h2]
      · have h2 : ¬ q.1 < t + 1 := by omega
        simp [h, h2]
    rw [hfilter]
  · rw [if_neg hpar, stateEdgeTerm_near st.stateEst p.2 t g ht (le_of_not_lt hpar) hfp.1]
    simp only [if_neg hpar]
    have hfilter : (p.2.obs.filter fun q => decide (t < q.1)) =
        p.2.obs.filter fun q => decide (q.1 ≠ p.2.parent) && decide (t < q.1) := by
      apply List.filter_congr
      intro q _
      by_cases h : t < q.1
      · have h1 : q.1 ≠ p.2.parent := by omega
        simp [h, h1]
      · simp [h]
    rw [hfilter]

/-- C5 witness: the re-scoring characterisation evaluated at a concrete state
with two state edges and a feature whose parent timestep is 0, relabeling the
state edge at timestep 1. -/
theorem mcmc_state_edge_rescoring_witness :
    edgeLRstate sampleMState 1 5 =
      (sampleMState.features.map fun p =>
        ((p.2.obs.filter fun q =>
            decide (q.1 ≠ p.2.parent) &&
              (if 1 < p.2.parent then decide (q.1 < 1 + 1) else decide (1 < q.1))).map
          fun q =>
            q.2.ll (accum (sampleMState.stateEst.set 1 5) q.1 p.2.parent +ᵥ p.2.est) -
              q.2.ll (accum sampleMState.stateEst q.1 p.2.parent +ᵥ p.2.est)).sum).sum :=
  mcmc_state_edge_rescoring sampleMState 1 5 (by decide) (by decide)

end SlamSpec
